import Mathlib

/-!
Verification of the election-date-tracker front end.

The development shallowly embeds the reproducible logic of the repository:
the date utilities (`src/website/src/utils.js`), the per-state next-election
computation of the map view (`USMap`), the state card (`StateCard.jsx`), the
timeline aggregation pipeline (`UpcomingTimeline.jsx`), the data-loading
fallback (`App.jsx`), and the detail-view lookup (`StateDetail`).

Calendar dates (fixed-width `YYYY-MM-DD` strings in the data) are embedded
as civil `year/month/day` triples; the ECMAScript `Date` value produced by
`new Date(dateStr + 'T00:00:00')` is modelled by the proleptic-Gregorian
epoch-day number `Date.toEpochDay` times the number of milliseconds per day
(the platform's fixed local-timezone offset cancels in every subtraction the
code performs).  The current wall clock (`new Date()`) is a `Clock`: the
epoch day of the current local calendar day plus the milliseconds elapsed
since local midnight.
-/

namespace ElectionTracker

/-- A civil calendar date, the embedding of a `YYYY-MM-DD` data string. -/
structure Date where
  year : Int
  month : Int
  day : Int
deriving DecidableEq

/-- `1000 * 60 * 60 * 24`, the divisor used by `daysUntil` in `utils.js`. -/
def msPerDay : Int := 1000 * 60 * 60 * 24

/-- Epoch-day number of a civil date (proleptic Gregorian, day 0 =
1970-01-01).  This embeds the ECMAScript `MakeDay` computation performed by
`new Date('YYYY-MM-DDT00:00:00')`. -/
def Date.toEpochDay (dt : Date) : Int :=
  let y : Int := if dt.month ≤ 2 then dt.year - 1 else dt.year
  let era : Int := y.ediv 400
  let yoe : Int := y - era * 400
  let mp : Int := (dt.month + 9).emod 12
  let doy : Int := (153 * mp + 2).ediv 5 + dt.day - 1
  let doe : Int := yoe * 365 + yoe.ediv 4 - yoe.ediv 100 + doy
  era * 146097 + doe - 719468

/-- The current wall-clock instant, split into the epoch day of the current
local calendar day and the milliseconds elapsed since local midnight. -/
structure Clock where
  day : Int
  msOfDay : Int
deriving DecidableEq

/-- `today.setHours(0, 0, 0, 0)`: the clock truncated to local midnight,
as a millisecond timestamp. -/
def midnightMs (c : Clock) : Int := c.day * msPerDay

/-- `Math.ceil (a / b)` for exact integer arithmetic (`b > 0`). -/
def ceilDiv (a b : Int) : Int := -((-a) / b)

/-- `daysUntil` from `src/website/src/utils.js`:
`Math.ceil((target - today) / (1000*60*60*24))` where `target` is the local
midnight of the argument date and `today` is the current clock truncated to
local midnight. -/
def daysUntil (dt : Date) (now : Clock) : Int :=
  ceilDiv (dt.toEpochDay * msPerDay - midnightMs now) msPerDay

theorem daysUntil_eq_sub (dt : Date) (now : Clock) :
    daysUntil dt now = dt.toEpochDay - now.day := by
  have h : -(dt.toEpochDay * msPerDay - midnightMs now) =
      (now.day - dt.toEpochDay) * msPerDay := by
    simp only [midnightMs]; ring
  have hms : msPerDay ≠ 0 := by simp [msPerDay]
  simp only [daysUntil, ceilDiv, h, Int.mul_ediv_cancel _ hms]
  ring

/-- `getColorByDays` from `src/website/src/utils.js` (National Parks
palette). -/
def getColorByDays (days : Int) : String :=
  if days ≤ 30 then "#C65D3D"
  else if days ≤ 60 then "#D4A574"
  else if days ≤ 90 then "#8B7355"
  else if days ≤ 180 then "#3D7A52"
  else "#2D5A3D"

/-- The discrete urgency buckets named by the specification. -/
inductive Bucket where
  | imminent
  | soon
  | approaching
  | distant
  | far
deriving DecidableEq

/-- Modelled from the spec: the status classifier `classify(days)`,
first-match over the ordered thresholds 30/60/90/180. -/
def specClassify (days : Int) : Bucket :=
  if days ≤ 30 then .imminent
  else if days ≤ 60 then .soon
  else if days ≤ 90 then .approaching
  else if days ≤ 180 then .distant
  else .far

/-- The fixed display color attached to each bucket. -/
def bucketColor : Bucket → String
  | .imminent => "#C65D3D"
  | .soon => "#D4A574"
  | .approaching => "#8B7355"
  | .distant => "#3D7A52"
  | .far => "#2D5A3D"

/-- C3: for every civil date and every clock instant within a local calendar
day, `daysUntil` equals the ceiling of the midnight difference divided by one
day; it returns `0` for today, `N` for a date exactly `N` days ahead, `-N`
for a date exactly `N` days in the past, and its value does not depend on
the milliseconds elapsed since midnight. -/
theorem daysUntil_calendar (dt : Date) (now : Clock) (N : Int) :
    (dt.toEpochDay = now.day → daysUntil dt now = 0) ∧
    (dt.toEpochDay = now.day + N → daysUntil dt now = N) ∧
    (dt.toEpochDay = now.day - N → daysUntil dt now = -N) ∧
    (∀ ms₁ ms₂ : Int, daysUntil dt ⟨now.day, ms₁⟩ = daysUntil dt ⟨now.day, ms₂⟩) := by
  refine ⟨?_, ?_, ?_, ?_⟩
  · intro h; rw [daysUntil_eq_sub]; omega
  · intro h; rw [daysUntil_eq_sub]; omega
  · intro h; rw [daysUntil_eq_sub]; omega
  · intro ms₁ ms₂; rw [daysUntil_eq_sub, daysUntil_eq_sub]

theorem daysUntil_calendar_witness :
    daysUntil ⟨2026, 3, 3⟩ ⟨(Date.mk 2026 1 1).toEpochDay, 37500000⟩ = 61 :=
  (daysUntil_calendar ⟨2026, 3, 3⟩ ⟨(Date.mk 2026 1 1).toEpochDay, 37500000⟩ 61).2.1
    (by decide)

/-- C7: `getColorByDays` agrees with the spec's bucket classifier composed
with the bucket-to-color table, over every integer day-offset; in particular
every negative offset (a past election) lands in the `imminent` bucket. -/
theorem getColorByDays_classifies (days : Int) :
    getColorByDays days = bucketColor (specClassify days) ∧
    (days < 0 → specClassify days = Bucket.imminent) := by
  constructor
  · simp only [getColorByDays, specClassify]
    split_ifs <;> rfl
  · intro h
    simp only [specClassify]
    rw [if_pos (by omega)]

theorem getColorByDays_classifies_witness :
    getColorByDays (-5) = bucketColor Bucket.imminent ∧
    specClassify (-5) = Bucket.imminent := by
  have h := getColorByDays_classifies (-5)
  have h2 := h.2 (by decide)
  exact ⟨h2 ▸ h.1, h2⟩

/-- The `next_primary` / `next_general` sub-record of a state election
record (only the fields the embedded logic reads). -/
structure ElectionInfo where
  date : Date
  confidence : String
deriving DecidableEq

/-- A state election record from `election_dates.json` (only the fields the
embedded logic reads). -/
structure StateRec where
  state_code : String
  state_name : String
  next_primary : ElectionInfo
  next_general : ElectionInfo
deriving DecidableEq

/-- A special-election record from `special_elections.json` (only the fields
the embedded logic reads); `next_date` is optional. -/
structure SpecialRec where
  id : String
  state_code : String
  state_name : String
  office : String
  district : Option String
  next_date : Option Date
deriving DecidableEq

/-- The optional special-elections document. -/
structure SpecialData where
  special_elections : List SpecialRec
  by_state : List (String × List SpecialRec)
deriving DecidableEq

/-- The election type tag carried by derived events and candidates. -/
inductive EKind where
  | primary
  | general
  | special
deriving DecidableEq

/-- A candidate built by `getNextElection` in `USMap`
(`{type, date, days, office?, district?}`). -/
structure Cand where
  kind : EKind
  date : Date
  days : Int
  office : Option String
  district : Option String
deriving DecidableEq

/-- The Primary candidate `{type: 'Primary', date: state.next_primary.date,
days: daysUntil(state.next_primary.date)}`. -/
def primaryCand (st : StateRec) (now : Clock) : Cand :=
  ⟨.primary, st.next_primary.date, daysUntil st.next_primary.date now, none, none⟩

/-- The General candidate. -/
def generalCand (st : StateRec) (now : Clock) : Cand :=
  ⟨.general, st.next_general.date, daysUntil st.next_general.date now, none, none⟩

/-- `getStateSpecials` in `USMap`: the special-election records of a state
(empty when the optional document is absent). -/
def stateSpecials (sd : Option SpecialData) (code : String) : List SpecialRec :=
  match sd with
  | none => []
  | some d => d.special_elections.filter (fun e => e.state_code == code)

/-- The full candidate list of `getNextElection`: Primary, General, then one
Special candidate per special record with a non-null `next_date`, in record
order. -/
def candidatesOf (st : StateRec) (sd : Option SpecialData) (now : Clock) : List Cand :=
  [primaryCand st now, generalCand st now] ++
    (stateSpecials sd st.state_code).filterMap (fun sp =>
      sp.next_date.map (fun d => ⟨.special, d, daysUntil d now, some sp.office, sp.district⟩))

/-- The comparator `(a, b) => a.days - b.days` used to sort candidates. -/
def daysLE (a b : Cand) : Prop := a.days ≤ b.days

instance : DecidableRel daysLE := fun a b => Int.decLe a.days b.days

instance : IsTotal Cand daysLE := ⟨fun a b => Int.le_total a.days b.days⟩

instance : IsTrans Cand daysLE := ⟨fun _ _ _ => Int.le_trans⟩

/-- The selection step of `getNextElection`:
`elections.filter(e => e.days >= 0).sort((a, b) => a.days - b.days)` followed
by `upcoming[0] || elections[0]` (a stable sort, modelled by insertion
sort). -/
def nextFromCandidates (cands : List Cand) : Option Cand :=
  match (cands.filter fun e => decide (0 ≤ e.days)).insertionSort daysLE with
  | c :: _ => some c
  | [] => cands.head?

/-- `getNextElection` from `USMap` (`src/unnamed/part_000`): look the state
up by code, build the candidate list, and select. -/
def getNextElection (states : List StateRec) (sd : Option SpecialData)
    (now : Clock) (code : String) : Option Cand :=
  match states.find? (fun s => s.state_code == code) with
  | none => none
  | some st => nextFromCandidates (candidatesOf st sd now)

/-- What a state card displays in its footer. -/
structure CardInfo where
  nextElection : String
  daysToNext : Int
deriving DecidableEq

/-- `StateCard` (`src/website/src/components/StateCard.jsx`):
`nextElection = primaryDays < generalDays ? 'primary' : 'general'` and
`daysToNext = Math.min(primaryDays, generalDays)`. -/
def stateCard (st : StateRec) (now : Clock) : CardInfo :=
  let primaryDays := daysUntil st.next_primary.date now
  let generalDays := daysUntil st.next_general.date now
  { nextElection := if primaryDays < generalDays then "primary" else "general"
    daysToNext := min primaryDays generalDays }

/-- C1: for every state present in the loaded data, the map view's
`getNextElection` returns a value (never an error): a candidate from the
construction-order list `[Primary, General] ++ specials-with-next_date`
whose day-offset is the smallest non-negative one when some candidate is
non-negative, and the Primary (the first candidate in construction order)
when no candidate is non-negative. -/
theorem getNextElection_spec (states : List StateRec) (sd : Option SpecialData)
    (now : Clock) (code : String) (st : StateRec)
    (hfind : states.find? (fun s => s.state_code == code) = some st) :
    ∃ c, getNextElection states sd now code = some c ∧
      c ∈ candidatesOf st sd now ∧
      ((∃ c' ∈ candidatesOf st sd now, 0 ≤ c'.days) →
        0 ≤ c.days ∧ ∀ c' ∈ candidatesOf st sd now, 0 ≤ c'.days → c.days ≤ c'.days) ∧
      ((∀ c' ∈ candidatesOf st sd now, c'.days < 0) → c = primaryCand st now) := by
  have hgne : getNextElection states sd now code =
      nextFromCandidates (candidatesOf st sd now) := by
    unfold getNextElection
    rw [hfind]
  rw [hgne]
  unfold nextFromCandidates
  cases hu : (((candidatesOf st sd now).filter fun e =>
      decide (0 ≤ e.days)).insertionSort daysLE) with
  | nil =>
    have hperm := List.perm_insertionSort daysLE
      ((candidatesOf st sd now).filter fun e => decide (0 ≤ e.days))
    rw [hu] at hperm
    have hfil : (candidatesOf st sd now).filter (fun e => decide (0 ≤ e.days)) = [] :=
      hperm.symm.eq_nil
    refine ⟨primaryCand st now, ?_, ?_, ?_, fun _ => rfl⟩
    · simp [candidatesOf]
    · simp [candidatesOf]
    · rintro ⟨c', hc', hd⟩
      have : c' ∈ ((candidatesOf st sd now).filter fun e => decide (0 ≤ e.days)) :=
        List.mem_filter.mpr ⟨hc', by simpa using hd⟩
      rw [hfil] at this
      cases this
  | cons c rest =>
    have hcmem : c ∈ ((candidatesOf st sd now).filter fun e => decide (0 ≤ e.days)) := by
      have : c ∈ (((candidatesOf st sd now).filter fun e =>
          decide (0 ≤ e.days)).insertionSort daysLE) := by
        rw [hu]; exact List.mem_cons_self c rest
      exact (List.mem_insertionSort daysLE).mp this
    have hc_cands : c ∈ candidatesOf st sd now := (List.mem_filter.mp hcmem).1
    have hc_nonneg : 0 ≤ c.days := by
      have := (List.mem_filter.mp hcmem).2
      simpa using this
    have hsorted := List.sorted_insertionSort daysLE
      ((candidatesOf st sd now).filter fun e => decide (0 ≤ e.days))
    rw [hu] at hsorted
    have hmin : ∀ c' ∈ candidatesOf st sd now, 0 ≤ c'.days → c.days ≤ c'.days := by
      intro c' hc' hd'
      have hc'fil : c' ∈ ((candidatesOf st sd now).filter fun e => decide (0 ≤ e.days)) :=
        List.mem_filter.mpr ⟨hc', by simpa using hd'⟩
      have hc'sort : c' ∈ (((candidatesOf st sd now).filter fun e =>
          decide (0 ≤ e.days)).insertionSort daysLE) :=
        (List.mem_insertionSort daysLE).mpr hc'fil
      rw [hu] at hc'sort
      rcases List.mem_cons.mp hc'sort with h | h
      · exact h ▸ le_refl _
      · exact (List.pairwise_cons.mp hsorted).1 c' h
    refine ⟨c, rfl, hc_cands, fun _ => ⟨hc_nonneg, hmin⟩, fun hall => ?_⟩
    exact absurd hc_nonneg (not_le.mpr (hall c hc_cands))

theorem getNextElection_spec_witness :
    ∃ c, getNextElection
        [⟨"CA", "California", ⟨⟨2026, 6, 2⟩, "High"⟩, ⟨⟨2026, 11, 3⟩, "High"⟩⟩]
        none ⟨(Date.mk 2026 1 1).toEpochDay, 0⟩ "CA" = some c ∧
      c ∈ candidatesOf
        ⟨"CA", "California", ⟨⟨2026, 6, 2⟩, "High"⟩, ⟨⟨2026, 11, 3⟩, "High"⟩⟩
        none ⟨(Date.mk 2026 1 1).toEpochDay, 0⟩ ∧
      ((∃ c' ∈ candidatesOf
          ⟨"CA", "California", ⟨⟨2026, 6, 2⟩, "High"⟩, ⟨⟨2026, 11, 3⟩, "High"⟩⟩
          none ⟨(Date.mk 2026 1 1).toEpochDay, 0⟩, 0 ≤ c'.days) →
        0 ≤ c.days ∧ ∀ c' ∈ candidatesOf
          ⟨"CA", "California", ⟨⟨2026, 6, 2⟩, "High"⟩, ⟨⟨2026, 11, 3⟩, "High"⟩⟩
          none ⟨(Date.mk 2026 1 1).toEpochDay, 0⟩, 0 ≤ c'.days → c.days ≤ c'.days) ∧
      ((∀ c' ∈ candidatesOf
          ⟨"CA", "California", ⟨⟨2026, 6, 2⟩, "High"⟩, ⟨⟨2026, 11, 3⟩, "High"⟩⟩
          none ⟨(Date.mk 2026 1 1).toEpochDay, 0⟩, c'.days < 0) →
        c = primaryCand
          ⟨"CA", "California", ⟨⟨2026, 6, 2⟩, "High"⟩, ⟨⟨2026, 11, 3⟩, "High"⟩⟩
          ⟨(Date.mk 2026 1 1).toEpochDay, 0⟩) :=
  getNextElection_spec
    [⟨"CA", "California", ⟨⟨2026, 6, 2⟩, "High"⟩, ⟨⟨2026, 11, 3⟩, "High"⟩⟩]
    none ⟨(Date.mk 2026 1 1).toEpochDay, 0⟩ "CA"
    ⟨"CA", "California", ⟨⟨2026, 6, 2⟩, "High"⟩, ⟨⟨2026, 11, 3⟩, "High"⟩⟩
    (by decide)

/-- C2 counterexample: a state whose primary is 5 days past and whose
general is 100 days ahead.  The claimed rule (smallest non-negative
day-offset over {Primary, General, specials}) selects the General candidate
with 100 days, but the card displays `-5` days labelled "primary": the card
does not implement that rule. -/
theorem stateCard_claim_counterexample :
    (stateCard ⟨"AA", "Alpha", ⟨⟨2026, 1, 1⟩, "High"⟩, ⟨⟨2026, 4, 16⟩, "High"⟩⟩
        ⟨(Date.mk 2026 1 6).toEpochDay, 0⟩).daysToNext = -5 ∧
    (stateCard ⟨"AA", "Alpha", ⟨⟨2026, 1, 1⟩, "High"⟩, ⟨⟨2026, 4, 16⟩, "High"⟩⟩
        ⟨(Date.mk 2026 1 6).toEpochDay, 0⟩).nextElection = "primary" ∧
    (∃ c, nextFromCandidates
        (candidatesOf ⟨"AA", "Alpha", ⟨⟨2026, 1, 1⟩, "High"⟩, ⟨⟨2026, 4, 16⟩, "High"⟩⟩
          none ⟨(Date.mk 2026 1 6).toEpochDay, 0⟩) = some c ∧
      c.days = 100 ∧ c.kind = EKind.general) ∧
    (stateCard ⟨"AA", "Alpha", ⟨⟨2026, 1, 1⟩, "High"⟩, ⟨⟨2026, 4, 16⟩, "High"⟩⟩
        ⟨(Date.mk 2026 1 6).toEpochDay, 0⟩).daysToNext ≠ 100 := by
  refine ⟨by decide, by decide, ⟨⟨.general, ⟨2026, 4, 16⟩, 100, none, none⟩, by decide,
    by decide, by decide⟩, by decide⟩

/-- C2 amended: the card selects between the two regular elections only,
by the unrestricted minimum of the two day-offsets (which may be negative;
special elections are never consulted), and labels the result "primary"
exactly when the primary's offset is strictly smaller. -/
theorem stateCard_regular_min (st : StateRec) (now : Clock) :
    (stateCard st now).daysToNext =
      min (daysUntil st.next_primary.date now) (daysUntil st.next_general.date now) ∧
    ((stateCard st now).nextElection = "primary" ↔
      daysUntil st.next_primary.date now < daysUntil st.next_general.date now) ∧
    ((stateCard st now).nextElection = "general" ↔
      ¬ daysUntil st.next_primary.date now < daysUntil st.next_general.date now) ∧
    ∃ c ∈ [primaryCand st now, generalCand st now],
      (stateCard st now).daysToNext = c.days ∧
      ∀ c' ∈ [primaryCand st now, generalCand st now], c.days ≤ c'.days := by
  refine ⟨rfl, ?_, ?_, ?_⟩
  · by_cases h : daysUntil st.next_primary.date now < daysUntil st.next_general.date now <;>
      simp [stateCard, h]
  · by_cases h : daysUntil st.next_primary.date now < daysUntil st.next_general.date now <;>
      simp [stateCard, h]
  · by_cases h : daysUntil st.next_primary.date now ≤ daysUntil st.next_general.date now
    · exact ⟨primaryCand st now, by simp, by simp [stateCard, primaryCand, min_eq_left h],
        by simp [primaryCand, generalCand]; omega⟩
    · refine ⟨generalCand st now, by simp, ?_, ?_⟩
      · simp only [stateCard, generalCand]
        omega
      · simp [primaryCand, generalCand]; omega

theorem stateCard_regular_min_witness :
    (stateCard ⟨"AA", "Alpha", ⟨⟨2026, 1, 1⟩, "High"⟩, ⟨⟨2026, 4, 16⟩, "High"⟩⟩
        ⟨(Date.mk 2026 1 6).toEpochDay, 0⟩).daysToNext =
      min (daysUntil ⟨2026, 1, 1⟩ ⟨(Date.mk 2026 1 6).toEpochDay, 0⟩)
        (daysUntil ⟨2026, 4, 16⟩ ⟨(Date.mk 2026 1 6).toEpochDay, 0⟩) :=
  (stateCard_regular_min ⟨"AA", "Alpha", ⟨⟨2026, 1, 1⟩, "High"⟩, ⟨⟨2026, 4, 16⟩, "High"⟩⟩
    ⟨(Date.mk 2026 1 6).toEpochDay, 0⟩).1

/-- C10: when a state's primary and general dates coincide, the two
day-offsets are equal, the strict comparison fails, and the card labels the
upcoming election "general" while displaying the common offset. -/
theorem stateCard_tie (st : StateRec) (now : Clock)
    (h : st.next_primary.date = st.next_general.date) :
    (stateCard st now).nextElection = "general" ∧
    (stateCard st now).daysToNext = daysUntil st.next_primary.date now := by
  have hd : daysUntil st.next_primary.date now = daysUntil st.next_general.date now := by
    rw [h]
  constructor
  · simp [stateCard, hd]
  · simp [stateCard, hd]

theorem stateCard_tie_witness :
    (stateCard ⟨"LA", "Louisiana", ⟨⟨2026, 11, 3⟩, "High"⟩, ⟨⟨2026, 11, 3⟩, "High"⟩⟩
        ⟨(Date.mk 2026 1 1).toEpochDay, 0⟩).nextElection = "general" ∧
    (stateCard ⟨"LA", "Louisiana", ⟨⟨2026, 11, 3⟩, "High"⟩, ⟨⟨2026, 11, 3⟩, "High"⟩⟩
        ⟨(Date.mk 2026 1 1).toEpochDay, 0⟩).daysToNext =
      daysUntil ⟨2026, 11, 3⟩ ⟨(Date.mk 2026 1 1).toEpochDay, 0⟩ :=
  stateCard_tie ⟨"LA", "Louisiana", ⟨⟨2026, 11, 3⟩, "High"⟩, ⟨⟨2026, 11, 3⟩, "High"⟩⟩
    ⟨(Date.mk 2026 1 1).toEpochDay, 0⟩ rfl

/-- A derived election event emitted by `UpcomingTimeline`. -/
structure Event where
  state_code : String
  state_name : String
  date : Date
  kind : EKind
  category : String
  office : Option String
  district : Option String
  days : Int
deriving DecidableEq

/-- The Primary event pushed for a state by `UpcomingTimeline`. -/
def primaryEvent (st : StateRec) (now : Clock) : Event :=
  ⟨st.state_code, st.state_name, st.next_primary.date, .primary, "regular", none, none,
    daysUntil st.next_primary.date now⟩

/-- The General event pushed for a state by `UpcomingTimeline`. -/
def generalEvent (st : StateRec) (now : Clock) : Event :=
  ⟨st.state_code, st.state_name, st.next_general.date, .general, "regular", none, none,
    daysUntil st.next_general.date now⟩

/-- The regular events: for each state in input order, its Primary then its
General. -/
def regularEvents (states : List StateRec) (now : Clock) : List Event :=
  states.flatMap (fun st => [primaryEvent st now, generalEvent st now])

/-- The Special events: one per special-election record with a non-null
`next_date`, in record order. -/
def specialEvents (sd : Option SpecialData) (now : Clock) : List Event :=
  match sd with
  | none => []
  | some d => d.special_elections.filterMap (fun e =>
      e.next_date.map (fun dt =>
        ⟨e.state_code, e.state_name, dt, .special, "special", some e.office, e.district,
          daysUntil dt now⟩))

/-- The emission sequence of `UpcomingTimeline`: all regular events, then
all special events. -/
def buildElections (states : List StateRec) (sd : Option SpecialData)
    (now : Clock) : List Event :=
  regularEvents states now ++ specialEvents sd now

/-- The sort comparator `(a, b) => new Date(a.date) - new Date(b.date)`. -/
def dateLE (a b : Event) : Prop := a.date.toEpochDay ≤ b.date.toEpochDay

instance : DecidableRel dateLE := fun a b => Int.decLe a.date.toEpochDay b.date.toEpochDay

instance : IsTotal Event dateLE := ⟨fun a b => Int.le_total a.date.toEpochDay b.date.toEpochDay⟩

instance : IsTrans Event dateLE := ⟨fun _ _ _ => Int.le_trans⟩

/-- `elections.sort((a, b) => new Date(a.date) - new Date(b.date))`: JS
`Array.prototype.sort` is a stable sort, modelled by insertion sort. -/
def sortByDate (l : List Event) : List Event := l.insertionSort dateLE

/-- The timeline list after `sort` and `filter(e => e.days >= 0)`. -/
def upcomingElections (states : List StateRec) (sd : Option SpecialData)
    (now : Clock) : List Event :=
  (sortByDate (buildElections states sd now)).filter (fun e => decide (0 ≤ e.days))

/-- A stable sort leaves any run of mutually `r`-comparable selected
elements in place: filtering the sorted list by a predicate whose selected
elements are pairwise related gives the filter of the input. -/
theorem filter_insertionSort_stable {α : Type} (r : α → α → Prop) [DecidableRel r]
    [IsTotal α r] [IsTrans α r] (p : α → Bool) (l : List α)
    (hp : (l.filter p).Pairwise r) :
    (l.insertionSort r).filter p = l.filter p := by
  have hsub : List.Sublist (l.filter p) (l.insertionSort r) :=
    List.sublist_insertionSort hp (List.filter_sublist l)
  have hself : (l.filter p).filter p = l.filter p :=
    List.filter_eq_self.mpr (fun a ha => (List.mem_filter.mp ha).2)
  have h2 : List.Sublist (l.filter p) ((l.insertionSort r).filter p) := by
    have h3 := hsub.filter p
    rwa [hself] at h3
  have hlen : ((l.insertionSort r).filter p).length = (l.filter p).length :=
    ((List.perm_insertionSort r l).filter p).length_eq
  exact (h2.eq_of_length hlen.symm).symm

/-- C4: the aggregated timeline list, after sorting and filtering, is a
non-strict ascending chain by date (hence every consecutive pair is in
date order) and contains no event with a negative day-offset. -/
theorem upcoming_sorted_nonneg (states : List StateRec) (sd : Option SpecialData)
    (now : Clock) :
    List.Pairwise (fun a b : Event => a.date.toEpochDay ≤ b.date.toEpochDay)
      (upcomingElections states sd now) ∧
    ∀ e ∈ upcomingElections states sd now, 0 ≤ e.days := by
  constructor
  · exact (List.sorted_insertionSort dateLE (buildElections states sd now)).filter
      (fun e => decide (0 ≤ e.days))
  · intro e he
    have h2 := (List.mem_filter.mp he).2
    simpa using h2

theorem upcoming_sorted_nonneg_witness :
    0 ≤ (⟨"CA", "California", ⟨2026, 6, 2⟩, .primary, "regular", none, none,
      152⟩ : Event).days :=
  (upcoming_sorted_nonneg
    [⟨"CA", "California", ⟨⟨2026, 6, 2⟩, "High"⟩, ⟨⟨2026, 11, 3⟩, "High"⟩⟩]
    none ⟨(Date.mk 2026 1 1).toEpochDay, 0⟩).2
    ⟨"CA", "California", ⟨2026, 6, 2⟩, .primary, "regular", none, none, 152⟩
    (by decide)

/-- The grouping key `toLocaleDateString('en-US', {month: 'long', year:
'numeric'})`, which determines and is determined by the calendar month and
year of the event's date. -/
def monthKey (e : Event) : Int × Int := (e.date.year, e.date.month)

/-- One step of the grouping `reduce`: append the event to the entry with
its key if one exists, otherwise add a fresh entry at the end (JS object
string keys enumerate in insertion order). -/
def addToGroup : List ((Int × Int) × List Event) → (Int × Int) → Event →
    List ((Int × Int) × List Event)
  | [], k, e => [(k, [e])]
  | (k', es) :: rest, k, e =>
    if k' = k then (k', es ++ [e]) :: rest
    else (k', es) :: addToGroup rest k e

/-- The accumulator step of the grouping `reduce`. -/
def groupStep (acc : List ((Int × Int) × List Event)) (e : Event) :
    List ((Int × Int) × List Event) :=
  addToGroup acc (monthKey e) e

/-- `upcomingElections.reduce(...)` followed by `Object.entries`: the
grouped timeline, in key-insertion order. -/
def groupByMonth (l : List Event) : List ((Int × Int) × List Event) :=
  l.foldl groupStep []

/-- Modelled from the spec: append a key to a key list unless it is already
present. -/
def insertKey (ks : List (Int × Int)) (k : Int × Int) : List (Int × Int) :=
  if k ∈ ks then ks else ks ++ [k]

/-- Modelled from the spec: the month keys of a list of events, in the
order the first event of each month appears. -/
def firstKeys (l : List Event) : List (Int × Int) :=
  l.foldl (fun ks e => insertKey ks (monthKey e)) []

theorem insertKey_nodup {ks : List (Int × Int)} {k : Int × Int} (h : ks.Nodup) :
    (insertKey ks k).Nodup := by
  unfold insertKey
  split_ifs with hm
  · exact h
  · exact List.Nodup.append h (List.nodup_singleton k)
      (List.disjoint_singleton.mpr hm)

theorem mem_insertKey_self (ks : List (Int × Int)) (k : Int × Int) :
    k ∈ insertKey ks k := by
  unfold insertKey
  split_ifs with hm
  · exact hm
  · simp

theorem mem_insertKey_of_mem {ks : List (Int × Int)} {k₀ : Int × Int}
    (k : Int × Int) (h : k₀ ∈ ks) : k₀ ∈ insertKey ks k := by
  unfold insertKey
  split_ifs
  · exact h
  · exact List.mem_append_left _ h

theorem keysFold_nodup : ∀ (l : List Event) (ks : List (Int × Int)), ks.Nodup →
    (l.foldl (fun ks e => insertKey ks (monthKey e)) ks).Nodup
  | [], _, h => h
  | e :: l, ks, h => keysFold_nodup l (insertKey ks (monthKey e)) (insertKey_nodup h)

theorem mem_keysFold_of_mem : ∀ (l : List Event) (ks : List (Int × Int))
    (k₀ : Int × Int), k₀ ∈ ks →
    k₀ ∈ l.foldl (fun ks e => insertKey ks (monthKey e)) ks
  | [], _, _, h => h
  | e :: l, ks, k₀, h =>
    mem_keysFold_of_mem l (insertKey ks (monthKey e)) k₀ (mem_insertKey_of_mem _ h)

theorem monthKey_mem_keysFold : ∀ (l : List Event) (ks : List (Int × Int)),
    ∀ e ∈ l, monthKey e ∈ l.foldl (fun ks e => insertKey ks (monthKey e)) ks := by
  intro l
  induction l with
  | nil => intro ks e he; cases he
  | cons a l ih =>
    intro ks e he
    rcases List.mem_cons.mp he with h | h
    · subst h
      exact mem_keysFold_of_mem l _ _ (mem_insertKey_self ks (monthKey e))
    · exact ih (insertKey ks (monthKey a)) e h

theorem firstKeys_nodup (l : List Event) : (firstKeys l).Nodup :=
  keysFold_nodup l [] List.nodup_nil

theorem mem_firstKeys {l : List Event} {e : Event} (h : e ∈ l) :
    monthKey e ∈ firstKeys l :=
  monthKey_mem_keysFold l [] e h

theorem firstKeys_append_single (l : List Event) (e : Event) :
    firstKeys (l ++ [e]) = insertKey (firstKeys l) (monthKey e) := by
  unfold firstKeys
  rw [List.foldl_append]
  rfl

theorem addToGroup_map_fst (acc : List ((Int × Int) × List Event))
    (k : Int × Int) (e : Event) :
    (addToGroup acc k e).map Prod.fst = insertKey (acc.map Prod.fst) k := by
  induction acc with
  | nil => simp [addToGroup, insertKey]
  | cons hd rest ih =>
    obtain ⟨k', es⟩ := hd
    by_cases hk : k' = k
    · subst hk
      simp [addToGroup, insertKey]
    · have hne : ¬k = k' := fun h => hk h.symm
      by_cases hm : k ∈ rest.map Prod.fst
      · simp [addToGroup, hk, ih, insertKey, hm, hne]
      · simp [addToGroup, hk, ih, insertKey, hm, hne]

theorem addToGroup_cases (k : Int × Int) (e : Event) :
    ∀ acc : List ((Int × Int) × List Event), (acc.map Prod.fst).Nodup →
    ∀ p ∈ addToGroup acc k e,
      (p ∈ acc ∧ p.1 ≠ k) ∨
      (∃ es, (k, es) ∈ acc ∧ p = (k, es ++ [e])) ∨
      (k ∉ acc.map Prod.fst ∧ p = (k, [e])) := by
  intro acc
  induction acc with
  | nil =>
    intro _ p hp
    simp only [addToGroup, List.mem_singleton] at hp
    exact Or.inr (Or.inr ⟨by simp, hp⟩)
  | cons hd rest ih =>
    obtain ⟨k', es⟩ := hd
    intro hnd p hp
    by_cases hk : k' = k
    · subst hk
      simp only [addToGroup, if_pos rfl] at hp
      rcases List.mem_cons.mp hp with h | h
      · exact Or.inr (Or.inl ⟨es, List.mem_cons_self _ _, h⟩)
      · -- p is an untouched entry of rest; its key differs from k' = k
        have hknotin : k' ∉ rest.map Prod.fst := (List.nodup_cons.mp hnd).1
        have hpk : p.1 ≠ k' := by
          intro hpe
          exact hknotin (hpe ▸ List.mem_map_of_mem Prod.fst h)
        exact Or.inl ⟨List.mem_cons_of_mem _ h, hpk⟩
    · simp only [addToGroup, if_neg hk] at hp
      rcases List.mem_cons.mp hp with h | h
      · subst h
        exact Or.inl ⟨List.mem_cons_self _ _, hk⟩
      · rcases ih (List.nodup_cons.mp hnd).2 p h with h1 | h2 | h3
        · exact Or.inl ⟨List.mem_cons_of_mem _ h1.1, h1.2⟩
        · obtain ⟨es₂, hmem, hpeq⟩ := h2
          exact Or.inr (Or.inl ⟨es₂, List.mem_cons_of_mem _ hmem, hpeq⟩)
        · refine Or.inr (Or.inr ⟨?_, h3.2⟩)
          simp only [List.map_cons, List.mem_cons]
          rintro (h | h)
          · exact hk h.symm
          · exact h3.1 h

theorem group_foldl_inv : ∀ (l processed : List Event)
    (acc : List ((Int × Int) × List Event)),
    acc.map Prod.fst = firstKeys processed →
    (∀ p ∈ acc, p.2 = processed.filter (fun e => decide (monthKey e = p.1))) →
    ((l.foldl groupStep acc).map Prod.fst = firstKeys (processed ++ l) ∧
      ∀ p ∈ l.foldl groupStep acc,
        p.2 = (processed ++ l).filter (fun e => decide (monthKey e = p.1))) := by
  intro l
  induction l with
  | nil =>
    intro processed acc h1 h2
    rw [List.append_nil]
    exact ⟨h1, h2⟩
  | cons e l ih =>
    intro processed acc h1 h2
    have hnd : (acc.map Prod.fst).Nodup := h1 ▸ firstKeys_nodup processed
    have hstep1 : (groupStep acc e).map Prod.fst = firstKeys (processed ++ [e]) := by
      rw [groupStep, addToGroup_map_fst, h1, firstKeys_append_single]
    have hstep2 : ∀ p ∈ groupStep acc e,
        p.2 = (processed ++ [e]).filter (fun x => decide (monthKey x = p.1)) := by
      intro p hp
      rcases addToGroup_cases (monthKey e) e acc hnd p hp with
        ⟨hmem, hne⟩ | ⟨es, hmem, hpe⟩ | ⟨hnotin, hpe⟩
      · rw [List.filter_append]
        have hz : [e].filter (fun x => decide (monthKey x = p.1)) = [] := by
          simp [Ne.symm hne]
        rw [hz, List.append_nil]
        exact h2 p hmem
      · subst hpe
        have h2' := h2 (monthKey e, es) hmem
        simp only at h2'
        rw [List.filter_append]
        have ho : [e].filter (fun x => decide (monthKey x = (monthKey e, es ++ [e]).1)) = [e] := by
          simp
        rw [ho]
        simp only
        rw [← h2']
      · subst hpe
        have hz : processed.filter (fun x => decide (monthKey x = (monthKey e, [e]).1)) = [] := by
          rw [List.filter_eq_nil_iff]
          intro x hx
          simp only [decide_eq_true_eq]
          intro hmk
          exact (h1 ▸ hnotin) (hmk ▸ mem_firstKeys hx)
        rw [List.filter_append, hz, List.nil_append]
        simp
    have hres := ih (processed ++ [e]) (groupStep acc e) hstep1 hstep2
    have happ : (processed ++ [e]) ++ l = processed ++ e :: l := by simp
    rw [happ] at hres
    exact hres

theorem groupByMonth_inv (l : List Event) :
    (groupByMonth l).map Prod.fst = firstKeys l ∧
    ∀ p ∈ groupByMonth l, p.2 = l.filter (fun e => decide (monthKey e = p.1)) := by
  have h := group_foldl_inv l [] [] rfl (by intro p hp; cases hp)
  simpa using h

theorem addToGroup_flatten (acc : List ((Int × Int) × List Event))
    (k : Int × Int) (e : Event) :
    ((addToGroup acc k e).flatMap Prod.snd).Perm ((acc.flatMap Prod.snd) ++ [e]) := by
  induction acc with
  | nil => simp [addToGroup]
  | cons hd rest ih =>
    obtain ⟨k', es⟩ := hd
    by_cases hk : k' = k
    · subst hk
      simp only [addToGroup, if_pos rfl, List.flatMap_cons]
      have hswap : (es ++ ([e] ++ rest.flatMap Prod.snd)).Perm
          (es ++ (rest.flatMap Prod.snd ++ [e])) :=
        (List.perm_append_comm).append_left es
      simpa [List.append_assoc] using hswap
    · simp only [addToGroup, if_neg hk, List.flatMap_cons]
      have hih : (es ++ (addToGroup rest k e).flatMap Prod.snd).Perm
          (es ++ (rest.flatMap Prod.snd ++ [e])) := ih.append_left es
      simpa [List.append_assoc] using hih

theorem foldl_group_flatten : ∀ (l : List Event)
    (acc : List ((Int × Int) × List Event)),
    ((l.foldl groupStep acc).flatMap Prod.snd).Perm ((acc.flatMap Prod.snd) ++ l) := by
  intro l
  induction l with
  | nil => intro acc; simp
  | cons e l ih =>
    intro acc
    simp only [List.foldl_cons]
    have h2 := (addToGroup_flatten acc (monthKey e) e).append_right l
    have h3 : ((acc.flatMap Prod.snd) ++ [e]) ++ l = (acc.flatMap Prod.snd) ++ (e :: l) := by
      simp
    exact (ih (groupStep acc e)).trans (h3 ▸ h2)

theorem groupByMonth_flatten (l : List Event) :
    ((groupByMonth l).flatMap Prod.snd).Perm l := by
  simpa using foldl_group_flatten l []

/-- C5: the month grouping partitions the filtered, sorted timeline exactly:
the entry stored under each emitted key is precisely the sublist of events
whose date falls in that month, the emitted keys are pairwise distinct (so
every event lies in exactly one group), the concatenation of all groups is a
permutation of the filtered list, and the keys appear in the order in which
the first event of each month appears in the sorted sequence. -/
theorem timeline_grouping (states : List StateRec) (sd : Option SpecialData)
    (now : Clock) :
    (∀ p ∈ groupByMonth (upcomingElections states sd now),
      p.2 = (upcomingElections states sd now).filter
        (fun e => decide (monthKey e = p.1))) ∧
    ((groupByMonth (upcomingElections states sd now)).map Prod.fst).Nodup ∧
    ((groupByMonth (upcomingElections states sd now)).flatMap Prod.snd).Perm
      (upcomingElections states sd now) ∧
    (groupByMonth (upcomingElections states sd now)).map Prod.fst =
      firstKeys (upcomingElections states sd now) := by
  refine ⟨(groupByMonth_inv _).2, ?_, groupByMonth_flatten _, (groupByMonth_inv _).1⟩
  rw [(groupByMonth_inv _).1]
  exact firstKeys_nodup _

theorem timeline_grouping_witness :
    ((2026, 6), [(⟨"CA", "California", ⟨2026, 6, 2⟩, .primary, "regular", none, none,
        152⟩ : Event)]).2 =
      (upcomingElections
        [⟨"CA", "California", ⟨⟨2026, 6, 2⟩, "High"⟩, ⟨⟨2026, 11, 3⟩, "High"⟩⟩]
        none ⟨(Date.mk 2026 1 1).toEpochDay, 0⟩).filter
        (fun e => decide (monthKey e =
          ((2026, 6), [(⟨"CA", "California", ⟨2026, 6, 2⟩, .primary, "regular", none,
            none, 152⟩ : Event)]).1)) :=
  (timeline_grouping
    [⟨"CA", "California", ⟨⟨2026, 6, 2⟩, "High"⟩, ⟨⟨2026, 11, 3⟩, "High"⟩⟩]
    none ⟨(Date.mk 2026 1 1).toEpochDay, 0⟩).1
    ((2026, 6), [⟨"CA", "California", ⟨2026, 6, 2⟩, .primary, "regular", none, none, 152⟩])
    (by decide)

/-- C6: sort stability.  Among events sharing one date `d`, the filtered
sorted timeline lists them exactly as the emission sequence does (states in
input order, Primary before General, specials appended after all regular
events), and each month group lists them exactly as the filtered sorted
timeline does. -/
theorem timeline_stability (states : List StateRec) (sd : Option SpecialData)
    (now : Clock) (d : Date) :
    (upcomingElections states sd now).filter (fun e => decide (e.date = d)) =
      (buildElections states sd now).filter
        (fun e => decide (e.date = d) && decide (0 ≤ e.days)) ∧
    ∀ p ∈ groupByMonth (upcomingElections states sd now),
      p.2.filter (fun e => decide (e.date = d)) =
        (upcomingElections states sd now).filter
          (fun e => decide (e.date = d) && decide (monthKey e = p.1)) := by
  constructor
  · unfold upcomingElections sortByDate
    rw [List.filter_filter]
    apply filter_insertionSort_stable
    apply List.pairwise_of_forall_mem_list
    intro a ha b hb
    have ha' := (List.mem_filter.mp ha).2
    have hb' := (List.mem_filter.mp hb).2
    simp only [Bool.and_eq_true, decide_eq_true_eq] at ha' hb'
    show a.date.toEpochDay ≤ b.date.toEpochDay
    rw [ha'.1, hb'.1]
  · intro p hp
    rw [(groupByMonth_inv _).2 p hp, List.filter_filter]

theorem timeline_stability_witness :
    ((2026, 6), [(⟨"AA", "Alpha", ⟨2026, 6, 2⟩, .primary, "regular", none, none,
        152⟩ : Event),
      (⟨"BB", "Beta", ⟨2026, 6, 2⟩, .primary, "regular", none, none, 152⟩ : Event)]).2.filter
        (fun e => decide (e.date = (⟨2026, 6, 2⟩ : Date))) =
      (upcomingElections
        [⟨"AA", "Alpha", ⟨⟨2026, 6, 2⟩, "High"⟩, ⟨⟨2026, 11, 3⟩, "High"⟩⟩,
         ⟨"BB", "Beta", ⟨⟨2026, 6, 2⟩, "High"⟩, ⟨⟨2026, 11, 3⟩, "High"⟩⟩]
        none ⟨(Date.mk 2026 1 1).toEpochDay, 0⟩).filter
        (fun e => decide (e.date = (⟨2026, 6, 2⟩ : Date)) && decide (monthKey e =
          ((2026, 6), [(⟨"AA", "Alpha", ⟨2026, 6, 2⟩, .primary, "regular", none, none,
            152⟩ : Event),
          (⟨"BB", "Beta", ⟨2026, 6, 2⟩, .primary, "regular", none, none,
            152⟩ : Event)]).1)) :=
  (timeline_stability
    [⟨"AA", "Alpha", ⟨⟨2026, 6, 2⟩, "High"⟩, ⟨⟨2026, 11, 3⟩, "High"⟩⟩,
     ⟨"BB", "Beta", ⟨⟨2026, 6, 2⟩, "High"⟩, ⟨⟨2026, 11, 3⟩, "High"⟩⟩]
    none ⟨(Date.mk 2026 1 1).toEpochDay, 0⟩ ⟨2026, 6, 2⟩).2
    ((2026, 6), [⟨"AA", "Alpha", ⟨2026, 6, 2⟩, .primary, "regular", none, none, 152⟩,
      ⟨"BB", "Beta", ⟨2026, 6, 2⟩, .primary, "regular", none, none, 152⟩])
    (by decide)

/-- The mandatory `election_dates.json` document. -/
structure RegularData where
  generated_at : String
  states : List StateRec
deriving DecidableEq

/-- The empty structure substituted when the optional fetch fails:
`{special_elections: [], by_state: {}}`. -/
def emptySpecialData : SpecialData := ⟨[], []⟩

/-- What `App` renders once loading finishes. -/
inductive LoadView where
  | failure (msg : String)
  | content (data : RegularData) (specialData : SpecialData)
deriving DecidableEq

/-- The resolution of the optional fetch in `App.jsx`:
`fetch('/special_elections.json').then(res => res.json()).catch(() =>
({special_elections: [], by_state: {}}))` — a rejection is caught locally
and replaced by the empty structure. -/
def resolveSpecialFetch (r : Except String SpecialData) : SpecialData :=
  match r with
  | .ok sd => sd
  | .error _ => emptySpecialData

/-- The outcome of the `Promise.all` in `App.jsx` after loading finishes:
the optional fetch always resolves (via its local catch), so the joint
promise rejects exactly when the mandatory fetch rejects, in which case
`data` stays unset and the failure message is rendered. -/
def appView (regular : Except String RegularData)
    (special : Except String SpecialData) : LoadView :=
  match regular with
  | .error _ => .failure "Failed to load election data"
  | .ok d => .content d (resolveSpecialFetch special)

/-- C8: a failed optional fetch is substituted with the empty structure and
the app renders content with zero special elections, while a failed
mandatory fetch yields the user-visible failure view and never any
content. -/
theorem appView_fallback (d : RegularData) (e e' : String)
    (sf : Except String SpecialData) :
    appView (.ok d) (.error e) = .content d emptySpecialData ∧
    emptySpecialData.special_elections = [] ∧
    emptySpecialData.by_state = [] ∧
    appView (.error e') sf = .failure "Failed to load election data" ∧
    ∀ d' sd', appView (.error e') sf ≠ .content d' sd' := by
  refine ⟨rfl, rfl, rfl, rfl, ?_⟩
  intro d' sd' h
  cases h

theorem appView_fallback_witness :
    appView (.ok (⟨"2026-01-01T00:00:00Z", []⟩ : RegularData)) (.error "404") =
      LoadView.content ⟨"2026-01-01T00:00:00Z", []⟩ emptySpecialData ∧
    appView (Except.error "500" : Except String RegularData) (.error "404") ≠
      LoadView.content ⟨"2026-01-01T00:00:00Z", []⟩ emptySpecialData :=
  ⟨(appView_fallback ⟨"2026-01-01T00:00:00Z", []⟩ "404" "500" (.error "404")).1,
    (appView_fallback ⟨"2026-01-01T00:00:00Z", []⟩ "404" "500" (.error "404")).2.2.2.2
      ⟨"2026-01-01T00:00:00Z", []⟩ emptySpecialData⟩

/-- `stateCode.toUpperCase()` applied before the detail-view lookup:
upper-case every character (state codes are basic-latin). -/
def normalizeCode (code : String) : String := String.mk (code.data.map Char.toUpper)

/-- The lookup in `StateDetail`:
`states.find(s => s.state_code === stateCode.toUpperCase())`. -/
def findState (states : List StateRec) (code : String) : Option StateRec :=
  states.find? (fun s => s.state_code == normalizeCode code)

/-- What the `StateDetail` route renders. -/
inductive DetailView where
  | notFound (requested : String) (backLink : String)
  | detail (st : StateRec) (specials : List SpecialRec)
deriving DecidableEq

/-- `StateDetail` (`src/website/src/components/StateGrid.jsx`, second unit):
a failed lookup renders the not-found view with a `Link to="/"` back to the
index; otherwise the detail view with the state's raw special-election
list. -/
def stateDetail (states : List StateRec) (sd : Option SpecialData)
    (code : String) : DetailView :=
  match findState states code with
  | none => .notFound code "/"
  | some st => .detail st (stateSpecials sd (normalizeCode code))

/-- C9: the detail-view lookup upper-cases the route parameter before
comparison (so any two spellings with the same upper-casing resolve
identically), a parameter matching no record renders the not-found view
with a navigation link back to the index rather than failing, and in
particular `"zz"` normalizes to `"ZZ"`, whose lookup fails. -/
theorem stateDetail_notFound (states : List StateRec) (sd : Option SpecialData)
    (code : String) (hnone : ∀ st ∈ states, st.state_code ≠ normalizeCode code) :
    findState states code = none ∧
    stateDetail states sd code = DetailView.notFound code "/" ∧
    (∀ c₁ c₂ : String, normalizeCode c₁ = normalizeCode c₂ →
      findState states c₁ = findState states c₂) ∧
    normalizeCode "zz" = "ZZ" := by
  have hfind : findState states code = none := by
    rw [findState, List.find?_eq_none]
    intro st hst
    simpa using hnone st hst
  refine ⟨hfind, ?_, ?_, by decide⟩
  · rw [stateDetail, hfind]
  · intro c₁ c₂ hc
    rw [findState, findState, hc]

theorem stateDetail_notFound_witness :
    findState [⟨"CA", "California", ⟨⟨2026, 6, 2⟩, "High"⟩, ⟨⟨2026, 11, 3⟩, "High"⟩⟩]
      "zz" = none ∧
    stateDetail [⟨"CA", "California", ⟨⟨2026, 6, 2⟩, "High"⟩, ⟨⟨2026, 11, 3⟩, "High"⟩⟩]
      none "zz" = DetailView.notFound "zz" "/" ∧
    (∀ c₁ c₂ : String, normalizeCode c₁ = normalizeCode c₂ →
      findState [⟨"CA", "California", ⟨⟨2026, 6, 2⟩, "High"⟩, ⟨⟨2026, 11, 3⟩, "High"⟩⟩]
        c₁ =
      findState [⟨"CA", "California", ⟨⟨2026, 6, 2⟩, "High"⟩, ⟨⟨2026, 11, 3⟩, "High"⟩⟩]
        c₂) ∧
    normalizeCode "zz" = "ZZ" :=
  stateDetail_notFound
    [⟨"CA", "California", ⟨⟨2026, 6, 2⟩, "High"⟩, ⟨⟨2026, 11, 3⟩, "High"⟩⟩]
    none "zz" (by decide)

end ElectionTracker
